import Mathlib

/-!
Shallow embedding of the HypnoS Experience subsystem
(`src/experience.h`, experience implementation unit and the UCI glue):
entry model (merge/compare), per-position chains and `link_entry`,
incremental and full save, file load, the V1 codec, the compact-PGN
move-token cleanup, and the process-wide write gates.
-/

/-- In-memory experience entry (`Experience::V2::ExpEntry`, the data
carried by `ExpEntryEx`).  `key` is the u64 position fingerprint,
`move` the raw 4-byte move encoding, `value` and `depth` signed ints,
`count` the u16 observation counter. -/
structure ExpEntryM where
  key   : Nat
  move  : Nat
  value : Int
  depth : Int
  count : Nat
  deriving DecidableEq, Repr

/-- `V2::ExpEntry::merge`: `count` becomes the u16-saturating sum; on
equal depth the value is averaged with C++ `/` (truncation toward
zero); a strictly deeper other entry donates its value and depth;
otherwise value and depth are kept. -/
def mergeE (a b : ExpEntryM) : ExpEntryM :=
  let c := min (a.count + b.count) 65535
  if a.depth = b.depth then
    { a with count := c, value := Int.tdiv (a.value + b.value) 2 }
  else if a.depth < b.depth then
    { a with count := c, value := b.value, depth := b.depth }
  else
    { a with count := c }

/-- The scaled value used by `V2::ExpEntry::compare`:
`v * max(d / DepthScale, 1) * max(c / CountScale, 1)` with
`DepthScale = 10`, `CountScale = 3` and C++ int division. -/
def scaledValue (e : ExpEntryM) : Int :=
  e.value * max (Int.tdiv e.depth 10) 1 * ((max (e.count / 3) 1 : Nat) : Int)

/-- `V2::ExpEntry::compare`: difference of scaled values, then of
counts, then of depths (positive means the first entry is better). -/
def compareE (a b : ExpEntryM) : Int :=
  if scaledValue a - scaledValue b ≠ 0 then scaledValue a - scaledValue b
  else if (a.count : Int) - (b.count : Int) ≠ 0 then (a.count : Int) - (b.count : Int)
  else a.depth - b.depth

/-- A per-position chain as maintained by `ExperienceData::link_entry`,
viewed as the list of entry values from head to tail. -/
def chainSorted (l : List ExpEntryM) : Prop :=
  List.Chain' (fun a b => 0 ≤ compareE a b) l

/-- The merge arm of `link_entry`: `itr->second->find(exp->move)`
returns the first chain member with the requested move, and that
member is merged in place. -/
def mergeFirst : List ExpEntryM → ExpEntryM → List ExpEntryM
  | [], _ => []
  | x :: xs, e => if x.move = e.move then mergeE x e :: xs else x :: mergeFirst xs e

/-- The insertion arm of `link_entry`: walk the chain and place `e`
before the first member it beats under `compare`, else append at the
tail. -/
def insertChain (e : ExpEntryM) : List ExpEntryM → List ExpEntryM
  | [] => [e]
  | x :: xs => if compareE e x > 0 then e :: x :: xs else x :: insertChain e xs

/-- `ExperienceData::link_entry` restricted to the chain of `e.key`
(the hash-map lookup selects this chain; an absent key yields the
empty chain).  Returns the new chain and whether the entry was
inserted (`true`) or merged away (`false`). -/
def linkChain (c : List ExpEntryM) (e : ExpEntryM) : List ExpEntryM × Bool :=
  if c.any (fun x => x.move == e.move) then (mergeFirst c e, false)
  else (insertChain e c, true)

/-- Folding a sequence of `link_entry` calls over one chain. -/
def linkChainList (c : List ExpEntryM) : List ExpEntryM → List ExpEntryM
  | [] => c
  | e :: es => linkChainList (linkChain c e).1 es

/-- `true` when every `link_entry` call of the sequence reports
*inserted* (none merges into an existing member). -/
def allInserted (c : List ExpEntryM) : List ExpEntryM → Bool
  | [] => true
  | e :: es => (linkChain c e).2 && allInserted (linkChain c e).1 es

/-- `Experience::find_best_entry`'s chain walk: keep the argmax under
`compare`, preferring earlier members on ties. -/
def bestEntryGo (best : ExpEntryM) : List ExpEntryM → ExpEntryM
  | [] => best
  | e :: es => bestEntryGo (if compareE e best > 0 then e else best) es

/-- `Experience::find_best_entry` on a chain (`none` on an empty
probe). -/
def bestEntry : List ExpEntryM → Option ExpEntryM
  | [] => none
  | e :: es => some (bestEntryGo e es)

/-! ### Full save (`ExperienceData::_save`, `saveAll == true`) -/

/-- First chain walk of the full save: `maxCount` accumulated with
`std::max` from 0. -/
def chainMaxCount (c : List ExpEntryM) : Nat :=
  c.foldl (fun m e => max m e.count) 0

/-- Second chain walk: every count becomes
`std::max(count / scale, 1)`. -/
def scaleChainGo (scale : Nat) : List ExpEntryM → List ExpEntryM
  | [] => []
  | e :: es => { e with count := max (e.count / scale) 1 } :: scaleChainGo scale es

/-- Third chain walk: entries with `depth >= MinDepth` (= 4) are
appended to the write buffer. -/
def writeChainGo : List ExpEntryM → List ExpEntryM
  | [] => []
  | e :: es => if 4 ≤ e.depth then e :: writeChainGo es else writeChainGo es

/-- Full-save processing of one chain: compute `maxCount`, scale every
count by `scale = 1 + maxCount / 128`, then write the deep entries.
Returns the rewritten chain and the written records. -/
def saveAllChain (c : List ExpEntryM) : List ExpEntryM × List ExpEntryM :=
  let scaled := scaleChainGo (1 + chainMaxCount c / 128) c
  (scaled, writeChainGo scaled)

/-- Full save over the whole index (the loop `for (auto& x : _mainExp)`),
with the index viewed as an association list of chains. -/
def saveAllIndexChains : List (Nat × List ExpEntryM) → List (Nat × List ExpEntryM) × List ExpEntryM
  | [] => ([], [])
  | (k, c) :: rest =>
    let pc := saveAllChain c
    let pr := saveAllIndexChains rest
    ((k, pc.1) :: pr.1, pc.2 ++ pr.2)

/-! ### Incremental save (`ExperienceData::_save`, `saveAll == false`) -/

/-- The golden-ratio multiplier of the incremental-save dedup hash
(`km_hash`). -/
def hashC : Nat := 0x9E3779B185EBCA87

/-- `km_hash` of the incremental save:
`key ^ (mv * 0x9E3779B185EBCA87)` in u64 arithmetic, where `mv` holds
the 4 raw bytes of the move. -/
def kmHash (e : ExpEntryM) : Nat :=
  Nat.xor (e.key % 2 ^ 64) ((e.move % 2 ^ 32) * hashC % 2 ^ 64)

/-- The incremental-save loop over the staged entries (PV staging
followed by MultiPV staging): skip shallow entries, skip entries whose
`km_hash` signature was already seen in this batch, write the rest and
record their signatures. -/
def incSaveGo (seen : List Nat) : List ExpEntryM → List ExpEntryM
  | [] => []
  | e :: es =>
    if e.depth < 4 then incSaveGo seen es
    else if seen.contains (kmHash e) then incSaveGo seen es
    else e :: incSaveGo (kmHash e :: seen) es

/-- The specification-side dedup decision, keeping the list of already
processed batch entries: a staged entry is written iff it is deep and
no earlier deep entry of the batch carries the same `km_hash`
signature. -/
def dedupSpecGo (prev : List ExpEntryM) : List ExpEntryM → List ExpEntryM
  | [] => []
  | e :: es =>
    if decide (4 ≤ e.depth)
        && !(prev.any fun x => decide (4 ≤ x.depth) && (kmHash x == kmHash e)) then
      e :: dedupSpecGo (prev ++ [e]) es
    else dedupSpecGo (prev ++ [e]) es

/-! ### Controller state (`ExperienceData` with pointer aliasing)

Entries live in a heap (`new`/pool storage); the staging vectors and
the index chains hold heap indices, so a merge through `link_entry`
mutates the very object a staging vector points at — exactly the C++
aliasing. -/

/-- Dereference a heap slot (out-of-range reads yield a dummy; all
reachable states only use in-range indices). -/
def heapGet (h : List ExpEntryM) (i : Nat) : ExpEntryM :=
  h.getD i ⟨0, 0, 0, 0, 0⟩

/-- Index lookup `_mainExp.find(key)` over the chain table. -/
def chainsLookup : List (Nat × List Nat) → Nat → Option (List Nat)
  | [], _ => none
  | (k, c) :: rest, key => if k = key then some c else chainsLookup rest key

/-- Replace the chain stored under `key`. -/
def chainsSet : List (Nat × List Nat) → Nat → List Nat → List (Nat × List Nat)
  | [], _, _ => []
  | (k, c) :: rest, key, c' =>
    if k = key then (key, c') :: rest else (k, c) :: chainsSet rest key c'

/-- `ExpEntryEx::find(move)` on a chain of heap indices. -/
def findMoveId (h : List ExpEntryM) (m : Nat) : List Nat → Option Nat
  | [] => none
  | i :: is => if (heapGet h i).move = m then some i else findMoveId h m is

/-- The sorted-insertion walk of `link_entry` on a chain of heap
indices. -/
def insertIdSorted (h : List ExpEntryM) (j : Nat) : List Nat → List Nat
  | [] => [j]
  | i :: is =>
    if compareE (heapGet h j) (heapGet h i) > 0 then j :: i :: is
    else i :: insertIdSorted h j is

/-- The mutable state of one `ExperienceData` object: the entry heap,
the two staging vectors (`_newPvExp`, `_newMultiPvExp`) and the index
(`_mainExp`), staging and chains holding heap indices. -/
structure ExpSt where
  heap   : List ExpEntryM
  pv     : List Nat
  mpv    : List Nat
  chains : List (Nat × List Nat)
  deriving DecidableEq, Repr

/-- The empty controller state. -/
def emptySt : ExpSt := ⟨[], [], [], []⟩

/-- `ExperienceData::link_entry` on the heap model: install a fresh
chain, merge in place into the first same-move member, or insert
sorted by `compare`. -/
def linkSt (s : ExpSt) (j : Nat) : ExpSt × Bool :=
  let e := heapGet s.heap j
  match chainsLookup s.chains e.key with
  | none => ({ s with chains := s.chains ++ [(e.key, [j])] }, true)
  | some c =>
    match findMoveId s.heap e.move c with
    | some i => ({ s with heap := s.heap.set i (mergeE (heapGet s.heap i) e) }, false)
    | none => ({ s with chains := chainsSet s.chains e.key (insertIdSorted s.heap j c) }, true)

/-- `ExperienceData::add_pv_experience`: allocate a fresh entry with
`count = 1`, push it onto the PV staging vector, then link it. -/
def addPvSt (s : ExpSt) (k m : Nat) (v d : Int) : ExpSt :=
  let j := s.heap.length
  (linkSt { s with heap := s.heap ++ [⟨k, m, v, d, 1⟩], pv := s.pv ++ [j] } j).1

/-- `ExperienceData::add_multipv_experience`: same with the MultiPV
staging vector. -/
def addMpvSt (s : ExpSt) (k m : Nat) (v d : Int) : ExpSt :=
  let j := s.heap.length
  (linkSt { s with heap := s.heap ++ [⟨k, m, v, d, 1⟩], mpv := s.mpv ++ [j] } j).1

/-- The entry values currently staged, PV staging first — the order in
which the incremental save visits them. -/
def stagingValues (s : ExpSt) : List ExpEntryM :=
  (s.pv ++ s.mpv).map (heapGet s.heap)

/-- `ExperienceData::has_new_exp`. -/
def hasNewExpB (s : ExpSt) : Bool :=
  !s.pv.isEmpty || !s.mpv.isEmpty

/-- `ExperienceData::clear_new_exp`: staging vectors are drained (the
entries themselves move to the old bin, which has no further
observable role here). -/
def clearNewExpSt (s : ExpSt) : ExpSt :=
  { s with pv := [], mpv := [] }

/-- Well-formedness of reachable controller states: chain members are
in-range heap indices carrying the chain's key, and staged indices are
in range. -/
def stWF (s : ExpSt) : Prop :=
  (∀ p ∈ s.chains, ∀ i ∈ p.2, i < s.heap.length ∧ (heapGet s.heap i).key = p.1)
  ∧ (∀ i ∈ s.pv, i < s.heap.length) ∧ (∀ i ∈ s.mpv, i < s.heap.length)

instance (s : ExpSt) : Decidable (stWF s) := by
  unfold stWF
  infer_instance

/-! ### File-level actions, load and the V1 codec -/

/-- Externally visible side effects of the save/load controller
paths. -/
inductive ExpAction where
  | writeEntries (l : List ExpEntryM)
  | saveCall (saveAll ignoreLoadingCheck : Bool)
  | infoUpgrade
  deriving DecidableEq, Repr

/-- One loaded entry of `_load`: place it in the pool (heap) with
`next = nullptr` and link it. -/
def loadEntrySt (s : ExpSt) (e : ExpEntryM) : ExpSt :=
  (linkSt { s with heap := s.heap ++ [e] } s.heap.length).1

/-- The read loop of `_load`: each element is `some entry` for a
successful `reader->read` and `none` for a failed one; a failed read
aborts the loop with failure, keeping everything linked so far. -/
def loadRun (s : ExpSt) : List (Option ExpEntryM) → ExpSt × Bool
  | [] => (s, true)
  | none :: _ => (s, false)
  | some e :: rest => loadRun (loadEntrySt s e) rest

/-- `_load` after signature detection: run the read loop; on success
with a pre-V2 reader, emit the upgrade message and call
`save(fn, saveAll = true, ignoreLoadingCheck = true)`. -/
def loadModel (s : ExpSt) (reads : List (Option ExpEntryM)) (version : Nat) :
    ExpSt × Bool × List ExpAction :=
  let r := loadRun s reads
  if r.2 then
    if version ≠ 2 then (r.1, true, [ExpAction.infoUpgrade, ExpAction.saveCall true true])
    else (r.1, true, [])
  else (r.1, false, [])

/-- An on-disk V1 record (`V1::ExpEntry`; the `00 FF 00 FF` padding is
immaterial). -/
structure V1Rec where
  key   : Nat
  move  : Nat
  value : Int
  depth : Int
  deriving DecidableEq, Repr

/-- `V1::ExperienceReader::read`: fields map across, `count`
defaults to 1. -/
def v1Read (r : V1Rec) : ExpEntryM :=
  { key := r.key, move := r.move, value := r.value, depth := r.depth, count := 1 }

/-! ### Write gates and the top-level controller -/

/-- Process-wide experience state: the controller pointer
(`currentExperience` modelled by `present` plus `exp`), the option and
runtime flags, and the bench gates. -/
structure GSt where
  present         : Bool
  enabled         : Bool
  paused          : Bool
  readonly        : Bool
  benchMode       : Bool
  benchSingleShot : Bool
  exp             : ExpSt
  deriving DecidableEq, Repr

/-- Global `Experience::add_pv_experience`: drop when the controller is
absent, disabled, paused or readonly; under bench mode consume the
single-shot token atomically and accept only its holder. -/
def addPvG (g : GSt) (k m : Nat) (v d : Int) : GSt :=
  if !g.present || !g.enabled || g.paused || g.readonly then g
  else if g.benchMode then
    if g.benchSingleShot then
      { g with benchSingleShot := false, exp := addPvSt g.exp k m v d }
    else g
  else { g with exp := addPvSt g.exp k m v d }

/-- Global `Experience::add_multipv_experience`: additionally dropped
outright under bench mode. -/
def addMpvG (g : GSt) (k m : Nat) (v d : Int) : GSt :=
  if !g.present || g.benchMode || !g.enabled || g.paused || g.readonly then g
  else { g with exp := addMpvSt g.exp k m v d }

/-- A sequence of global PV adds. -/
def addPvGList (g : GSt) : List (Nat × Nat × Int × Int) → GSt
  | [] => g
  | a :: rest => addPvGList (addPvG g a.1 a.2.1 a.2.2.1 a.2.2.2) rest

/-- Top-level `Experience::save()`: a no-op without a controller, with
nothing staged, or when `Experience Readonly` is set; otherwise an
incremental save (`save(filename, false, false)`) that writes the
deduplicated staged entries and drains the staging vectors. -/
def saveG (g : GSt) : GSt × List ExpAction :=
  if !g.present || !(hasNewExpB g.exp) || g.readonly then (g, [])
  else ({ g with exp := clearNewExpSt g.exp },
        [ExpAction.writeEntries (incSaveGo [] (stagingValues g.exp))])

/-- The experience-relevant part of the `ucinewgame` handler:
`Experience::save()` then `resume_learning()`. -/
def ucinewgameG (g : GSt) : GSt × List ExpAction :=
  let r := saveG g
  ({ r.1 with paused := false }, r.2)

/-- The experience-relevant part of leaving the UCI loop on `quit`:
`Experience::save()`. -/
def quitG (g : GSt) : GSt × List ExpAction := saveG g

/-! ### Compact-PGN move-token cleanup (`convert_compact_pgn`) -/

/-- The move-cleanup loop
`while (_move.back() == '+' || _move.back() == '#' || _move.back() == '\r' || _move.back() == '\n') _move.pop_back();`
on the reversed character list: each iteration inspects the current
back character, so reaching the empty string means `back()` is called
on an empty `std::string` — undefined behaviour, modelled as `none`. -/
def stripRevChars : List Char → Option (List Char)
  | [] => none
  | c :: rest =>
    if c = '+' ∨ c = '#' ∨ c = '\r' ∨ c = '\n' then stripRevChars rest
    else some (c :: rest)

/-- The cleanup of one move token, as characters front-to-back. -/
def stripMoveTail (s : List Char) : Option (List Char) :=
  (stripRevChars s.reverse).map List.reverse

/-! ## Theorems -/

/-- `compare` is antisymmetric: swapping the arguments negates the
result. -/
theorem compareE_antisymm (a b : ExpEntryM) : compareE a b = -compareE b a := by
  simp only [compareE]
  split_ifs <;> omega

/-- If `e` does not beat `x` then `x` is at least as good as `e`. -/
theorem compareE_nonneg_of_not_pos {e x : ExpEntryM} (h : ¬ compareE e x > 0) :
    0 ≤ compareE x e := by
  have hax := compareE_antisymm x e
  omega

/-- The sorted-insertion walk of `link_entry` preserves the
adjacent-pair ordering of a chain. -/
theorem insertChain_sorted (e : ExpEntryM) :
    ∀ c : List ExpEntryM, chainSorted c → chainSorted (insertChain e c) := by
  intro c
  induction c with
  | nil =>
    intro _
    simp only [insertChain, chainSorted]
    exact List.chain'_singleton e
  | cons x xs ih =>
    intro h
    simp only [insertChain]
    by_cases hc : compareE e x > 0
    · rw [if_pos hc]
      exact List.chain'_cons.mpr ⟨le_of_lt hc, h⟩
    · rw [if_neg hc]
      cases xs with
      | nil =>
        simp only [insertChain]
        exact List.chain'_cons.mpr ⟨compareE_nonneg_of_not_pos hc, List.chain'_singleton e⟩
      | cons y ys =>
        have hxy : 0 ≤ compareE x y := (List.chain'_cons.mp h).1
        have htail : chainSorted (y :: ys) := (List.chain'_cons.mp h).2
        by_cases hy : compareE e y > 0
        · have hrw : insertChain e (y :: ys) = e :: y :: ys := by
            simp only [insertChain]
            rw [if_pos hy]
          rw [hrw]
          exact List.chain'_cons.mpr
            ⟨compareE_nonneg_of_not_pos hc, List.chain'_cons.mpr ⟨le_of_lt hy, htail⟩⟩
        · have hrw : insertChain e (y :: ys) = y :: insertChain e ys := by
            simp only [insertChain]
            rw [if_neg hy]
          rw [hrw]
          have hins : chainSorted (y :: insertChain e ys) := by
            have := ih htail
            rwa [hrw] at this
          exact List.chain'_cons.mpr ⟨hxy, hins⟩

/-- A `link_entry` call that reports *inserted* preserves the chain
ordering. -/
theorem linkChain_sorted_of_inserted {c : List ExpEntryM} {e : ExpEntryM}
    (h : chainSorted c) (hins : (linkChain c e).2 = true) :
    chainSorted (linkChain c e).1 := by
  by_cases hmv : c.any (fun x => x.move == e.move) = true
  · simp only [linkChain, if_pos hmv] at hins
    exact Bool.noConfusion hins
  · simp only [linkChain, if_neg hmv]
    exact insertChain_sorted e c h

/-- C2 (amended): a sequence of `link_entry` calls in which every call
reports *inserted* (no call merges into an existing member) leaves the
chain ordered by pseudo-quality descending: `compare(e_i, e_{i+1}) ≥ 0`
for every adjacent pair.  A call that merges may break this order (see
the counterexample). -/
theorem link_no_merge_chain_sorted :
    ∀ (es : List ExpEntryM) (c : List ExpEntryM),
      chainSorted c → allInserted c es = true → chainSorted (linkChainList c es) := by
  intro es
  induction es with
  | nil =>
    intro c h _
    simpa [linkChainList] using h
  | cons e rest ih =>
    intro c h hall
    simp only [allInserted, Bool.and_eq_true] at hall
    simp only [linkChainList]
    exact ih _ (linkChain_sorted_of_inserted h hall.1) hall.2

/-- Concrete instantiation of `link_no_merge_chain_sorted`. -/
theorem link_no_merge_chain_sorted_witness :
    allInserted [] [⟨1, 1, 10, 1, 1⟩, ⟨1, 2, 5, 1, 1⟩] = true
    ∧ chainSorted (linkChainList [] [⟨1, 1, 10, 1, 1⟩, ⟨1, 2, 5, 1, 1⟩]) :=
  ⟨by decide, link_no_merge_chain_sorted [⟨1, 1, 10, 1, 1⟩, ⟨1, 2, 5, 1, 1⟩] []
    List.chain'_nil (by decide)⟩

/-- C2 (counterexample): a `link_entry` call that merges can leave a
chain out of order — after inserting `(k,1,v=10,d=1)` and
`(k,2,v=5,d=1)` and then linking `(k,2,v=1000,d=20)` (which merges into
the second member and boosts it), the head compares strictly worse than
its successor. -/
theorem link_merge_breaks_order_cex :
    linkChainList [] [⟨1, 1, 10, 1, 1⟩, ⟨1, 2, 5, 1, 1⟩, ⟨1, 2, 1000, 20, 1⟩]
      = [⟨1, 1, 10, 1, 1⟩, ⟨1, 2, 1000, 20, 2⟩]
    ∧ compareE ⟨1, 1, 10, 1, 1⟩ ⟨1, 2, 1000, 20, 2⟩ < 0
    ∧ ¬ chainSorted
        (linkChainList [] [⟨1, 1, 10, 1, 1⟩, ⟨1, 2, 5, 1, 1⟩, ⟨1, 2, 1000, 20, 1⟩]) := by
  refine ⟨by decide, by decide, ?_⟩
  intro h
  rw [show linkChainList [] [⟨1, 1, 10, 1, 1⟩, ⟨1, 2, 5, 1, 1⟩, ⟨1, 2, 1000, 20, 1⟩]
        = [⟨1, 1, 10, 1, 1⟩, ⟨1, 2, 1000, 20, 2⟩] from by decide] at h
  exact absurd (List.chain'_cons.mp h).1 (by decide)

/-- C1: `merge` produces the u16-saturating count sum; on equal depths
the value is the truncating average, a deeper second argument donates
its value and depth, and otherwise value and depth are kept; key and
move are unchanged.  Seeding `(k, m, v=-300, d=4)` and then adding
`(k, m, v=500, d=20)` leaves one merged record `(v=500, d=20, c=2)`,
which best-entry returns. -/
theorem merge_spec_and_depth_wins (a b : ExpEntryM)
    (hk : a.key = b.key) (hm : a.move = b.move) :
    ((mergeE a b).count = min (a.count + b.count) 65535
      ∧ (mergeE a b).key = a.key ∧ (mergeE a b).move = a.move
      ∧ (a.depth = b.depth →
          (mergeE a b).value = Int.tdiv (a.value + b.value) 2 ∧ (mergeE a b).depth = a.depth)
      ∧ (a.depth < b.depth →
          (mergeE a b).value = b.value ∧ (mergeE a b).depth = b.depth)
      ∧ (b.depth < a.depth →
          (mergeE a b).value = a.value ∧ (mergeE a b).depth = a.depth))
    ∧ linkChainList [] [⟨17, 33, -300, 4, 1⟩, ⟨17, 33, 500, 20, 1⟩]
        = [⟨17, 33, 500, 20, 2⟩]
    ∧ bestEntry (linkChainList [] [⟨17, 33, -300, 4, 1⟩, ⟨17, 33, 500, 20, 1⟩])
        = some ⟨17, 33, 500, 20, 2⟩ := by
  refine ⟨⟨?_, ?_, ?_, ?_, ?_, ?_⟩, by decide, by decide⟩
  · simp only [mergeE]
    split_ifs <;> rfl
  · simp only [mergeE]
    split_ifs <;> rfl
  · simp only [mergeE]
    split_ifs <;> rfl
  · intro h
    simp [mergeE, h]
  · intro h
    have hne : a.depth ≠ b.depth := ne_of_lt h
    simp [mergeE, hne, h]
  · intro h
    have hne : a.depth ≠ b.depth := ne_of_gt h
    have hnl : ¬ a.depth < b.depth := by omega
    simp [mergeE, hne, hnl]

/-- Concrete instantiation of `merge_spec_and_depth_wins`. -/
theorem merge_spec_and_depth_wins_witness :
    (mergeE ⟨3, 4, 10, 6, 1⟩ ⟨3, 4, 20, 6, 1⟩).value = Int.tdiv (10 + 20) 2
    ∧ (mergeE ⟨3, 4, 10, 6, 1⟩ ⟨3, 4, 20, 6, 1⟩).depth = 6 :=
  (merge_spec_and_depth_wins ⟨3, 4, 10, 6, 1⟩ ⟨3, 4, 20, 6, 1⟩ rfl rfl).1.2.2.2.1 rfl

/-- The count-scaling walk is the pointwise count update. -/
theorem scaleChainGo_eq_map (scale : Nat) :
    ∀ c : List ExpEntryM,
      scaleChainGo scale c = c.map (fun e => { e with count := max (e.count / scale) 1 }) := by
  intro c
  induction c with
  | nil => rfl
  | cons e es ih => simp [scaleChainGo, ih]

/-- The write walk keeps exactly the entries with `depth ≥ 4`. -/
theorem writeChainGo_eq_filter :
    ∀ c : List ExpEntryM, writeChainGo c = c.filter (fun e => decide (4 ≤ e.depth)) := by
  intro c
  induction c with
  | nil => rfl
  | cons e es ih =>
    by_cases h : 4 ≤ e.depth
    · simp [writeChainGo, List.filter_cons, h, ih]
    · simp [writeChainGo, List.filter_cons, h, ih]

/-- The `maxCount` fold dominates any later accumulator value. -/
theorem foldl_maxCount_init_le :
    ∀ (c : List ExpEntryM) (a : Nat), a ≤ c.foldl (fun m e => max m e.count) a := by
  intro c
  induction c with
  | nil => intro a; exact le_refl a
  | cons x xs ih =>
    intro a
    calc a ≤ max a x.count := le_max_left _ _
    _ ≤ xs.foldl (fun m e => max m e.count) (max a x.count) := ih _

/-- Every member's count is dominated by the `maxCount` fold. -/
theorem foldl_maxCount_mem_le :
    ∀ (c : List ExpEntryM) (a : Nat) (e : ExpEntryM),
      e ∈ c → e.count ≤ c.foldl (fun m x => max m x.count) a := by
  intro c
  induction c with
  | nil => intro a e he; exact absurd he (List.not_mem_nil e)
  | cons x xs ih =>
    intro a e he
    rcases List.mem_cons.mp he with h | h
    · subst h
      calc e.count ≤ max a e.count := le_max_right _ _
      _ ≤ xs.foldl (fun m x => max m x.count) (max a e.count) := foldl_maxCount_init_le xs _
    · exact ih _ e h

/-- The `maxCount` fold result is the initial value or some member's
count. -/
theorem foldl_maxCount_cases :
    ∀ (c : List ExpEntryM) (a : Nat),
      c.foldl (fun m x => max m x.count) a = a
      ∨ ∃ e ∈ c, c.foldl (fun m x => max m x.count) a = e.count := by
  intro c
  induction c with
  | nil => intro a; exact Or.inl rfl
  | cons x xs ih =>
    intro a
    rcases ih (max a x.count) with h | ⟨e, he, h⟩
    · rcases max_choice a x.count with hm | hm
      · exact Or.inl (by simp only [List.foldl]; rw [h, hm])
      · exact Or.inr ⟨x, List.mem_cons_self x xs, by simp only [List.foldl]; rw [h, hm]⟩
    · exact Or.inr ⟨e, List.mem_cons_of_mem x he, by simp only [List.foldl]; rw [h]⟩

/-- The full save processes the chains of the index one by one,
concatenating the written records. -/
theorem saveAllIndexChains_eq_map :
    ∀ idx : List (Nat × List ExpEntryM),
      (saveAllIndexChains idx).1 = idx.map (fun kc => (kc.1, (saveAllChain kc.2).1))
      ∧ (saveAllIndexChains idx).2 = (idx.map (fun kc => (saveAllChain kc.2).2)).join := by
  intro idx
  induction idx with
  | nil => exact ⟨rfl, rfl⟩
  | cons kc rest ih =>
    obtain ⟨k, c⟩ := kc
    simp [saveAllIndexChains, ih.1, ih.2]

/-- C3: in a full save every chain of the index is processed by
replacing each entry's count with `max(count / scale, 1)` where
`scale = 1 + maxCount / 128` and `maxCount` is the maximum count over
the chain (it dominates every member and is attained by one when the
chain is non-empty), and an entry is written to disk iff its depth is
at least `MinDepth = 4`. -/
theorem save_all_scaling_spec :
    (∀ c : List ExpEntryM,
        (saveAllChain c).1
          = c.map (fun e => { e with count := max (e.count / (1 + chainMaxCount c / 128)) 1 })
        ∧ (saveAllChain c).2 = (saveAllChain c).1.filter (fun e => decide (4 ≤ e.depth)))
    ∧ (∀ (c : List ExpEntryM) (e : ExpEntryM), e ∈ c → e.count ≤ chainMaxCount c)
    ∧ (∀ c : List ExpEntryM, c ≠ [] → ∃ e ∈ c, chainMaxCount c = e.count)
    ∧ (∀ idx : List (Nat × List ExpEntryM),
        (saveAllIndexChains idx).1 = idx.map (fun kc => (kc.1, (saveAllChain kc.2).1))
        ∧ (saveAllIndexChains idx).2 = (idx.map (fun kc => (saveAllChain kc.2).2)).join) := by
  refine ⟨?_, ?_, ?_, saveAllIndexChains_eq_map⟩
  · intro c
    exact ⟨scaleChainGo_eq_map _ c, writeChainGo_eq_filter _⟩
  · intro c e he
    exact foldl_maxCount_mem_le c 0 e he
  · intro c hc
    cases c with
    | nil => exact absurd rfl hc
    | cons x xs =>
      have h0 : chainMaxCount (x :: xs) = xs.foldl (fun m e => max m e.count) x.count := by
        simp [chainMaxCount]
      rcases foldl_maxCount_cases xs x.count with h | ⟨e, he, h⟩
      · exact ⟨x, List.mem_cons_self x xs, by rw [h0, h]⟩
      · exact ⟨e, List.mem_cons_of_mem x he, by rw [h0, h]⟩

/-- Concrete instantiation of `save_all_scaling_spec`. -/
theorem save_all_scaling_spec_witness :
    (⟨1, 2, 3, 10, 300⟩ : ExpEntryM).count
        ≤ chainMaxCount [⟨1, 2, 3, 10, 300⟩, ⟨1, 5, 7, 2, 100⟩]
    ∧ ∃ e ∈ [(⟨1, 2, 3, 10, 300⟩ : ExpEntryM), ⟨1, 5, 7, 2, 100⟩],
        chainMaxCount [⟨1, 2, 3, 10, 300⟩, ⟨1, 5, 7, 2, 100⟩] = e.count :=
  ⟨save_all_scaling_spec.2.1 _ _ (by simp),
   save_all_scaling_spec.2.2.1 _ (by simp)⟩

/-- The incremental-save signature set contains exactly the hashes of
the already-processed deep batch entries; under that invariant the
code loop and the specification-side decision agree. -/
theorem incSaveGo_eq_dedupSpec_aux :
    ∀ (l : List ExpEntryM) (seen : List Nat) (prev : List ExpEntryM),
      (∀ h : Nat, seen.contains h = true ↔ ∃ x ∈ prev, 4 ≤ x.depth ∧ kmHash x = h) →
      incSaveGo seen l = dedupSpecGo prev l := by
  intro l
  induction l with
  | nil => intro seen prev _; rfl
  | cons e es ih =>
    intro seen prev hinv
    by_cases hd : e.depth < 4
    · have hnd : ¬ (4 ≤ e.depth) := by omega
      rw [show incSaveGo seen (e :: es) = incSaveGo seen es from by simp [incSaveGo, hd]]
      rw [show dedupSpecGo prev (e :: es) = dedupSpecGo (prev ++ [e]) es from by
        simp [dedupSpecGo, hnd]]
      apply ih
      intro h
      rw [hinv h]
      constructor
      · rintro ⟨x, hx, p⟩
        exact ⟨x, List.mem_append_left _ hx, p⟩
      · rintro ⟨x, hx, hdep, hh⟩
        rcases List.mem_append.mp hx with hx' | hx'
        · exact ⟨x, hx', hdep, hh⟩
        · rw [List.mem_singleton] at hx'
          subst hx'
          exact absurd hdep hnd
    · have hd4 : 4 ≤ e.depth := by omega
      by_cases hs : seen.contains (kmHash e) = true
      · have hmem : kmHash e ∈ seen := by simpa using hs
        rw [show incSaveGo seen (e :: es) = incSaveGo seen es from by
          simp [incSaveGo, hd, hmem]]
        have hany : (prev.any fun x => decide (4 ≤ x.depth) && (kmHash x == kmHash e)) = true := by
          obtain ⟨x, hx, hdep, hh⟩ := (hinv (kmHash e)).mp hs
          exact List.any_eq_true.mpr ⟨x, hx, by simp [hdep, hh]⟩
        rw [show dedupSpecGo prev (e :: es) = dedupSpecGo (prev ++ [e]) es from by
          simp [dedupSpecGo, hany]]
        apply ih
        intro h
        constructor
        · intro hc
          obtain ⟨x, hx, p⟩ := (hinv h).mp hc
          exact ⟨x, List.mem_append_left _ hx, p⟩
        · rintro ⟨x, hx, hdep, hh⟩
          rcases List.mem_append.mp hx with hx' | hx'
          · exact (hinv h).mpr ⟨x, hx', hdep, hh⟩
          · rw [List.mem_singleton] at hx'
            subst hx'
            rw [← hh]
            exact hs
      · have hnotany :
            (prev.any fun x => decide (4 ≤ x.depth) && (kmHash x == kmHash e)) = false := by
          cases hca : (prev.any fun x => decide (4 ≤ x.depth) && (kmHash x == kmHash e)) with
          | false => rfl
          | true =>
            obtain ⟨x, hx, hb⟩ := List.any_eq_true.mp hca
            simp only [Bool.and_eq_true, decide_eq_true_eq, beq_iff_eq] at hb
            exact absurd ((hinv (kmHash e)).mpr ⟨x, hx, hb.1, hb.2⟩) hs
        have hmem : kmHash e ∉ seen := by simpa using hs
        rw [show incSaveGo seen (e :: es) = e :: incSaveGo (kmHash e :: seen) es from by
          simp [incSaveGo, hd, hmem]]
        rw [show dedupSpecGo prev (e :: es) = e :: dedupSpecGo (prev ++ [e]) es from by
          simp [dedupSpecGo, hd4, hnotany]]
        congr 1
        apply ih
        intro h
        simp only [List.contains_cons, Bool.or_eq_true, beq_iff_eq]
        constructor
        · rintro (hh | hc)
          · exact ⟨e, by simp, hd4, hh.symm⟩
          · obtain ⟨x, hx, p⟩ := (hinv h).mp hc
            exact ⟨x, List.mem_append_left _ hx, p⟩
        · rintro ⟨x, hx, hdep, hh⟩
          rcases List.mem_append.mp hx with hx' | hx'
          · exact Or.inr ((hinv h).mpr ⟨x, hx', hdep, hh⟩)
          · rw [List.mem_singleton] at hx'
            subst hx'
            exact Or.inl hh.symm

/-- C5 (amended): during an incremental save a staged entry with
depth ≥ 4 is skipped iff an *earlier deep* entry of the same batch has
the same 64-bit signature `key XOR (move_raw · 0x9E3779B185EBCA87 mod 2⁶⁴)`
— equal `(key, move)` pairs always share the signature, so true
duplicates are skipped, but distinct pairs can collide (see the
counterexample); all other staged entries with depth ≥ 4 are written
exactly once. -/
theorem inc_save_dedup_by_signature :
    ∀ l : List ExpEntryM, incSaveGo [] l = dedupSpecGo [] l := by
  intro l
  apply incSaveGo_eq_dedupSpec_aux
  intro h
  simp

/-- C5 (counterexample): the batch dedup decision is taken on the
64-bit hash, not on the `(key, move)` pair — two staged deep entries
with different keys and different moves but colliding hashes result in
the second being skipped, although no earlier entry of the batch has
its `(key, move)` pair. -/
theorem inc_save_dedup_not_by_pair_cex :
    incSaveGo []
        [⟨5, 1, 0, 10, 1⟩, ⟨Nat.xor (Nat.xor 5 hashC) (2 * hashC % 2 ^ 64), 2, 0, 10, 1⟩]
      = [⟨5, 1, 0, 10, 1⟩]
    ∧ kmHash ⟨5, 1, 0, 10, 1⟩
        = kmHash ⟨Nat.xor (Nat.xor 5 hashC) (2 * hashC % 2 ^ 64), 2, 0, 10, 1⟩
    ∧ (⟨5, 1, 0, 10, 1⟩ : ExpEntryM).move
        ≠ (⟨Nat.xor (Nat.xor 5 hashC) (2 * hashC % 2 ^ 64), 2, 0, 10, 1⟩ : ExpEntryM).move
    ∧ (⟨5, 1, 0, 10, 1⟩ : ExpEntryM).key
        ≠ (⟨Nat.xor (Nat.xor 5 hashC) (2 * hashC % 2 ^ 64), 2, 0, 10, 1⟩ : ExpEntryM).key
    ∧ (4 : Int) ≤ (⟨Nat.xor (Nat.xor 5 hashC) (2 * hashC % 2 ^ 64), 2, 0, 10, 1⟩ : ExpEntryM).depth := by
  decide

/-- C6: a mid-file read failure aborts the load with failure, but the
entries linked before the failure stay in the index — the in-memory
index is not identical to its pre-load state. -/
theorem load_read_failure_keeps_links :
    (loadModel emptySt [some ⟨7, 3, 50, 10, 1⟩, none] 2).2.1 = false
    ∧ (loadModel emptySt [some ⟨7, 3, 50, 10, 1⟩, none] 2).1.chains = [(7, [0])]
    ∧ ¬ (loadModel emptySt [some ⟨7, 3, 50, 10, 1⟩, none] 2).1 = emptySt := by
  decide

/-- C7: the move-token cleanup loop of `convert_compact_pgn` reads
`_move.back()` before any emptiness check, so an empty token, or a
token consisting only of stripped characters, drives `back()` on an
empty string (undefined behaviour, modelled as `none`); a well-formed
token is stripped as described. -/
theorem strip_move_inspects_empty_back :
    stripMoveTail [] = none
    ∧ stripMoveTail ['+'] = none
    ∧ stripMoveTail ['#', '\r', '\n'] = none
    ∧ stripMoveTail ['e', '2', 'e', '4', '+'] = some ['e', '2', 'e', '4']
    ∧ stripMoveTail ['e', '2', 'e', '4'] = some ['e', '2', 'e', '4'] := by
  decide

/-- A read loop in which every read succeeds reports success. -/
theorem loadRun_all_some :
    ∀ (es : List ExpEntryM) (s : ExpSt), (loadRun s (es.map some)).2 = true := by
  intro es
  induction es with
  | nil => intro s; rfl
  | cons e rest ih => intro s; exact ih (loadEntrySt s e)

/-- C8: every entry read through the V1 codec carries `count = 1` with
the remaining fields mapped across, and a load that parses a whole V1
file succeeds and then invokes the full rewrite
(`save(fn, saveAll = true, ignoreLoadingCheck = true)`) preceded by an
informational message. -/
theorem v1_read_maps_count_one_then_upgrade :
    (∀ r : V1Rec,
        (v1Read r).count = 1 ∧ (v1Read r).key = r.key ∧ (v1Read r).move = r.move
        ∧ (v1Read r).value = r.value ∧ (v1Read r).depth = r.depth)
    ∧ (∀ (s : ExpSt) (recs : List V1Rec),
        (loadModel s (recs.map fun r => some (v1Read r)) 1).2
          = (true, [ExpAction.infoUpgrade, ExpAction.saveCall true true])) := by
  constructor
  · intro r
    exact ⟨rfl, rfl, rfl, rfl, rfl⟩
  · intro s recs
    have hmap : (recs.map fun r => some (v1Read r)) = (recs.map v1Read).map some := by
      simp [List.map_map]
    have hok : (loadRun s (recs.map fun r => some (v1Read r))).2 = true := by
      rw [hmap]
      exact loadRun_all_some (recs.map v1Read) s
    simp [loadModel, hok]

/-- C10: the top-level `Experience::save()` is a complete no-op when
there is no current experience store, nothing is staged, or the
`Experience Readonly` option is set; consequently the `ucinewgame` and
`quit` handlers perform no experience-file action while readonly is
set (the `ucinewgame` handler still resumes learning, which only
touches the paused flag). -/
theorem save_noop_gates :
    ∀ g : GSt,
      ((g.present = false ∨ hasNewExpB g.exp = false ∨ g.readonly = true) → saveG g = (g, []))
      ∧ (g.readonly = true →
          (ucinewgameG g).2 = [] ∧ (quitG g).2 = []
          ∧ (ucinewgameG g).1.exp = g.exp ∧ (quitG g).1 = g) := by
  intro g
  have hno : (g.present = false ∨ hasNewExpB g.exp = false ∨ g.readonly = true) →
      saveG g = (g, []) := by
    rintro (h | h | h) <;> simp [saveG, h]
  refine ⟨hno, ?_⟩
  intro h
  have hs : saveG g = (g, []) := hno (Or.inr (Or.inr h))
  refine ⟨?_, ?_, ?_, ?_⟩
  · simp [ucinewgameG, hs]
  · simp [quitG, hs]
  · simp [ucinewgameG, hs]
  · simp [quitG, hs]

/-- Concrete instantiation of `save_noop_gates`. -/
theorem save_noop_gates_witness :
    saveG ⟨true, true, false, true, false, false, emptySt⟩
        = (⟨true, true, false, true, false, false, emptySt⟩, [])
    ∧ (quitG ⟨true, true, false, true, false, false, emptySt⟩).1
        = ⟨true, true, false, true, false, false, emptySt⟩ :=
  ⟨(save_noop_gates _).1 (Or.inr (Or.inr rfl)),
   ((save_noop_gates _).2 rfl).2.2.2⟩

/-- Appending to the heap does not change existing slots. -/
theorem heapGet_append_lt :
    ∀ (h : List ExpEntryM) (e : ExpEntryM) (i : Nat),
      i < h.length → heapGet (h ++ [e]) i = heapGet h i := by
  intro h
  induction h with
  | nil => intro e i hi; exact absurd hi (by simp)
  | cons x xs ih =>
    intro e i hi
    cases i with
    | zero => rfl
    | succ n => exact ih e n (by simpa using hi)

/-- The freshly appended slot holds the appended entry. -/
theorem heapGet_append_self :
    ∀ (h : List ExpEntryM) (e : ExpEntryM), heapGet (h ++ [e]) h.length = e := by
  intro h
  induction h with
  | nil => intro e; rfl
  | cons x xs ih => intro e; exact ih e

/-- Writing one heap slot leaves the other slots unchanged. -/
theorem heapGet_set_ne :
    ∀ (h : List ExpEntryM) (t i : Nat) (x : ExpEntryM),
      t ≠ i → heapGet (h.set t x) i = heapGet h i := by
  intro h
  induction h with
  | nil => intro t i x _; rfl
  | cons y ys ih =>
    intro t i x hne
    cases t with
    | zero =>
      cases i with
      | zero => exact absurd rfl hne
      | succ n => rfl
    | succ m =>
      cases i with
      | zero => rfl
      | succ n => exact ih m n x (by omega)

/-- Writing an in-range heap slot stores the written entry. -/
theorem heapGet_set_self :
    ∀ (h : List ExpEntryM) (t : Nat) (x : ExpEntryM),
      t < h.length → heapGet (h.set t x) t = x := by
  intro h
  induction h with
  | nil => intro t x ht; exact absurd ht (by simp)
  | cons y ys ih =>
    intro t x ht
    cases t with
    | zero => rfl
    | succ m => exact ih m x (by simpa using ht)

/-- A successful index lookup returns a stored chain. -/
theorem chainsLookup_mem :
    ∀ (l : List (Nat × List Nat)) (key : Nat) (c : List Nat),
      chainsLookup l key = some c → (key, c) ∈ l := by
  intro l
  induction l with
  | nil => intro key c h; exact absurd h (by simp [chainsLookup])
  | cons p rest ih =>
    intro key c h
    obtain ⟨k, c0⟩ := p
    by_cases hk : k = key
    · simp only [chainsLookup, if_pos hk] at h
      obtain rfl : c0 = c := by injection h
      subst hk
      exact List.mem_cons_self _ _
    · simp only [chainsLookup, if_neg hk] at h
      exact List.mem_cons_of_mem _ (ih key c h)

/-- `find(move)` returns a chain member carrying the requested move. -/
theorem findMoveId_mem_move :
    ∀ (h : List ExpEntryM) (m : Nat) (c : List Nat) (i : Nat),
      findMoveId h m c = some i → i ∈ c ∧ (heapGet h i).move = m := by
  intro h m c
  induction c with
  | nil => intro i hi; exact absurd hi (by simp [findMoveId])
  | cons x xs ih =>
    intro i hi
    by_cases hx : (heapGet h x).move = m
    · simp only [findMoveId, if_pos hx] at hi
      obtain rfl : x = i := by injection hi
      exact ⟨List.mem_cons_self _ _, hx⟩
    · simp only [findMoveId, if_neg hx] at hi
      obtain ⟨hmem, hmv⟩ := ih i hi
      exact ⟨List.mem_cons_of_mem _ hmem, hmv⟩

/-- `merge` never touches the key or the move of its target. -/
theorem mergeE_key_move (a b : ExpEntryM) :
    (mergeE a b).key = a.key ∧ (mergeE a b).move = a.move := by
  simp only [mergeE]
  split_ifs <;> exact ⟨rfl, rfl⟩

/-- The dedup signature only depends on key and move. -/
theorem kmHash_congr {a b : ExpEntryM} (hk : a.key = b.key) (hm : a.move = b.move) :
    kmHash a = kmHash b := by
  simp [kmHash, hk, hm]

/-- `link_entry` never touches the staging vectors. -/
theorem linkSt_pv_mpv (s : ExpSt) (j : Nat) :
    ((linkSt s j).1).pv = s.pv ∧ ((linkSt s j).1).mpv = s.mpv := by
  rcases hc : chainsLookup s.chains (heapGet s.heap j).key with _ | c
  · simp [linkSt, hc]
  · rcases hf : findMoveId s.heap (heapGet s.heap j).move c with _ | i <;>
      simp [linkSt, hc, hf]

/-- The heap after `link_entry` is unchanged, or one existing chain
member was merged in place. -/
theorem linkSt_heap (s : ExpSt) (j : Nat) :
    ((linkSt s j).1).heap = s.heap
    ∨ ∃ c i, chainsLookup s.chains (heapGet s.heap j).key = some c
        ∧ findMoveId s.heap (heapGet s.heap j).move c = some i
        ∧ ((linkSt s j).1).heap = s.heap.set i (mergeE (heapGet s.heap i) (heapGet s.heap j)) := by
  rcases hc : chainsLookup s.chains (heapGet s.heap j).key with _ | c
  · left
    simp [linkSt, hc]
  · rcases hf : findMoveId s.heap (heapGet s.heap j).move c with _ | i
    · left
      simp [linkSt, hc, hf]
    · right
      exact ⟨c, i, rfl, hf, by simp [linkSt, hc, hf]⟩

/-- `add_pv_experience` appends the fresh index to the PV staging
vector. -/
theorem addPvSt_pv (s : ExpSt) (k m : Nat) (v d : Int) :
    (addPvSt s k m v d).pv = s.pv ++ [s.heap.length] := by
  simp only [addPvSt]
  rw [(linkSt_pv_mpv _ _).1]

/-- `add_pv_experience` leaves the MultiPV staging vector alone. -/
theorem addPvSt_mpv (s : ExpSt) (k m : Nat) (v d : Int) :
    (addPvSt s k m v d).mpv = s.mpv := by
  simp only [addPvSt]
  rw [(linkSt_pv_mpv _ _).2]

/-- `add_multipv_experience` appends the fresh index to the MultiPV
staging vector. -/
theorem addMpvSt_mpv (s : ExpSt) (k m : Nat) (v d : Int) :
    (addMpvSt s k m v d).mpv = s.mpv ++ [s.heap.length] := by
  simp only [addMpvSt]
  rw [(linkSt_pv_mpv _ _).2]

/-- The PV staging vector length grows by one on every
`add_pv_experience`. -/
theorem addPvSt_pv_len (s : ExpSt) (k m : Nat) (v d : Int) :
    (addPvSt s k m v d).pv.length = s.pv.length + 1 := by
  rw [addPvSt_pv]
  simp

/-- After `add_pv_experience` the fresh heap slot still carries the
freshly built `count = 1` entry, even when linking merged it into an
existing chain member (the merge target is an older, in-range slot
and lives elsewhere). -/
theorem addPvSt_heapGet_fresh (s : ExpSt) (k m : Nat) (v d : Int) (hwf : stWF s) :
    heapGet (addPvSt s k m v d).heap s.heap.length = ⟨k, m, v, d, 1⟩ := by
  have hself : heapGet (s.heap ++ [⟨k, m, v, d, 1⟩]) s.heap.length = ⟨k, m, v, d, 1⟩ :=
    heapGet_append_self s.heap _
  simp only [addPvSt]
  rcases linkSt_heap ⟨s.heap ++ [⟨k, m, v, d, 1⟩], s.pv ++ [s.heap.length], s.mpv, s.chains⟩
      s.heap.length with h | ⟨c, t, hc, hf, h⟩
  · rw [h]
    exact hself
  · have hmem := chainsLookup_mem _ _ _ hc
    have hft := findMoveId_mem_move _ _ _ _ hf
    have htlt : t < s.heap.length := (hwf.1 _ hmem t hft.1).1
    rw [h, heapGet_set_ne _ t s.heap.length _ (by omega)]
    exact hself

/-- Same fact for `add_multipv_experience`. -/
theorem addMpvSt_heapGet_fresh (s : ExpSt) (k m : Nat) (v d : Int) (hwf : stWF s) :
    heapGet (addMpvSt s k m v d).heap s.heap.length = ⟨k, m, v, d, 1⟩ := by
  have hself : heapGet (s.heap ++ [⟨k, m, v, d, 1⟩]) s.heap.length = ⟨k, m, v, d, 1⟩ :=
    heapGet_append_self s.heap _
  simp only [addMpvSt]
  rcases linkSt_heap ⟨s.heap ++ [⟨k, m, v, d, 1⟩], s.pv, s.mpv ++ [s.heap.length], s.chains⟩
      s.heap.length with h | ⟨c, t, hc, hf, h⟩
  · rw [h]
    exact hself
  · have hmem := chainsLookup_mem _ _ _ hc
    have hft := findMoveId_mem_move _ _ _ _ hf
    have htlt : t < s.heap.length := (hwf.1 _ hmem t hft.1).1
    rw [h, heapGet_set_ne _ t s.heap.length _ (by omega)]
    exact hself

/-- `add_pv_experience` preserves the dedup signature of every older
heap slot: slots are either untouched or merged in place, and a merge
keeps key and move. -/
theorem addPvSt_prefix_hash (s : ExpSt) (k m : Nat) (v d : Int) (hwf : stWF s) :
    ∀ i, i < s.heap.length →
      kmHash (heapGet (addPvSt s k m v d).heap i) = kmHash (heapGet s.heap i) := by
  intro i hi
  simp only [addPvSt]
  rcases linkSt_heap ⟨s.heap ++ [⟨k, m, v, d, 1⟩], s.pv ++ [s.heap.length], s.mpv, s.chains⟩
      s.heap.length with h | ⟨c, t, hc, hf, h⟩
  · rw [h]
    exact congrArg kmHash (heapGet_append_lt s.heap _ i hi)
  · rw [h]
    by_cases hit : t = i
    · subst hit
      have hlen : t < (s.heap ++ [(⟨k, m, v, d, 1⟩ : ExpEntryM)]).length := by
        simp only [List.length_append, List.length_cons]
        omega
      have hset := heapGet_set_self (s.heap ++ [(⟨k, m, v, d, 1⟩ : ExpEntryM)]) t
        (mergeE (heapGet (s.heap ++ [(⟨k, m, v, d, 1⟩ : ExpEntryM)]) t)
          (heapGet (s.heap ++ [(⟨k, m, v, d, 1⟩ : ExpEntryM)]) s.heap.length)) hlen
      have hmerge := mergeE_key_move (heapGet (s.heap ++ [(⟨k, m, v, d, 1⟩ : ExpEntryM)]) t)
        (heapGet (s.heap ++ [(⟨k, m, v, d, 1⟩ : ExpEntryM)]) s.heap.length)
      have h1 : kmHash (heapGet ((s.heap ++ [(⟨k, m, v, d, 1⟩ : ExpEntryM)]).set t
            (mergeE (heapGet (s.heap ++ [(⟨k, m, v, d, 1⟩ : ExpEntryM)]) t)
              (heapGet (s.heap ++ [(⟨k, m, v, d, 1⟩ : ExpEntryM)]) s.heap.length))) t)
          = kmHash (heapGet s.heap t) := by
        rw [hset, kmHash_congr hmerge.1 hmerge.2]
        exact congrArg kmHash (heapGet_append_lt s.heap _ t hi)
      exact h1
    · exact congrArg kmHash
        (Eq.trans (heapGet_set_ne _ t i _ hit) (heapGet_append_lt s.heap _ i hi))

/-- A deep entry whose signature collides with no signature seen so
far and with no batch entry before it is written by the incremental
save. -/
theorem incSaveGo_mem_of_fresh :
    ∀ (l : List ExpEntryM) (seen : List Nat) (e : ExpEntryM) (rest : List ExpEntryM),
      4 ≤ e.depth → (∀ h ∈ seen, h ≠ kmHash e) → (∀ x ∈ l, kmHash x ≠ kmHash e) →
      e ∈ incSaveGo seen (l ++ e :: rest) := by
  intro l
  induction l with
  | nil =>
    intro seen e rest hd hseen _
    have hnd : ¬ e.depth < 4 := by omega
    have hnc : kmHash e ∉ seen := fun hmem => (hseen _ hmem) rfl
    simp [incSaveGo, hnd, hnc]
  | cons x l' ih =>
    intro seen e rest hd hseen hl
    have hx : kmHash x ≠ kmHash e := hl x (List.mem_cons_self x l')
    have hl' : ∀ y ∈ l', kmHash y ≠ kmHash e := fun y hy => hl y (List.mem_cons_of_mem x hy)
    simp only [List.cons_append, incSaveGo]
    by_cases hdx : x.depth < 4
    · rw [if_pos hdx]
      exact ih seen e rest hd hseen hl'
    · rw [if_neg hdx]
      by_cases hcx : seen.contains (kmHash x) = true
      · rw [if_pos hcx]
        exact ih seen e rest hd hseen hl'
      · rw [if_neg hcx]
        refine List.mem_cons_of_mem x ?_
        refine ih _ e rest hd ?_ hl'
        intro h hh
        rcases List.mem_cons.mp hh with rfl | hh'
        · exact hx
        · exact hseen h hh'

/-- C9 (amended): whenever the per-controller `add_pv_experience` or
`add_multipv_experience` runs, a freshly allocated `count = 1` entry is
appended to the corresponding staging vector before linking, even when
`link_entry` merges it into an already-existing chain entry for the
same `(key, move)`; such a merged-but-staged entry is then written by
the next incremental save provided its depth is ≥ 4 and no entry
already staged carries the same dedup signature (in particular when
the merge target is an index entry that is not part of the staged
batch).  If an earlier staged entry shares the signature — e.g. two
adds of the same `(key, move)` — the batch dedup drops it instead (see
the counterexample). -/
theorem add_staged_before_link :
    ∀ (s : ExpSt) (k m : Nat) (v d : Int),
      stWF s →
      ((addPvSt s k m v d).pv = s.pv ++ [s.heap.length]
        ∧ heapGet (addPvSt s k m v d).heap s.heap.length = ⟨k, m, v, d, 1⟩
        ∧ (addMpvSt s k m v d).mpv = s.mpv ++ [s.heap.length]
        ∧ heapGet (addMpvSt s k m v d).heap s.heap.length = ⟨k, m, v, d, 1⟩)
      ∧ (4 ≤ d →
          (∀ x ∈ s.pv.map (heapGet s.heap), kmHash x ≠ kmHash ⟨k, m, v, d, 1⟩) →
          ⟨k, m, v, d, 1⟩ ∈ incSaveGo [] (stagingValues (addPvSt s k m v d))) := by
  intro s k m v d hwf
  refine ⟨⟨addPvSt_pv s k m v d, addPvSt_heapGet_fresh s k m v d hwf,
    addMpvSt_mpv s k m v d, addMpvSt_heapGet_fresh s k m v d hwf⟩, ?_⟩
  intro hd4 hpv
  have hdecomp : stagingValues (addPvSt s k m v d)
      = (s.pv.map (heapGet (addPvSt s k m v d).heap))
        ++ (⟨k, m, v, d, 1⟩ :: s.mpv.map (heapGet (addPvSt s k m v d).heap)) := by
    unfold stagingValues
    rw [addPvSt_pv, addPvSt_mpv]
    simp [List.map_append, addPvSt_heapGet_fresh s k m v d hwf]
  rw [hdecomp]
  refine incSaveGo_mem_of_fresh _ [] _ _ hd4 (by simp) ?_
  intro x hx
  obtain ⟨i, hi_mem, rfl⟩ := List.mem_map.mp hx
  have hilt : i < s.heap.length := hwf.2.1 i hi_mem
  rw [addPvSt_prefix_hash s k m v d hwf i hilt]
  exact hpv _ (List.mem_map_of_mem _ hi_mem)

/-- Concrete instantiation of `add_staged_before_link`: the merge
target is a loaded index entry outside the batch, and the staged entry
is written. -/
theorem add_staged_before_link_witness :
    stWF ⟨[⟨9, 4, 100, 10, 1⟩], [], [], [(9, [0])]⟩
    ∧ ⟨9, 4, 200, 10, 1⟩ ∈ incSaveGo []
        (stagingValues (addPvSt ⟨[⟨9, 4, 100, 10, 1⟩], [], [], [(9, [0])]⟩ 9 4 200 10)) :=
  ⟨by decide,
   (add_staged_before_link ⟨[⟨9, 4, 100, 10, 1⟩], [], [], [(9, [0])]⟩ 9 4 200 10
      (by decide)).2 (by decide) (by simp)⟩

/-- C9 (counterexample): when the merge target is itself an earlier
staged entry of the same batch — two PV adds of the same `(key, move)`
— the second, merged-but-staged entry is *not* written by the next
incremental save: only the (mutated) first staged entry is. -/
theorem add_merged_staged_not_written_cex :
    stagingValues (addPvSt (addPvSt emptySt 9 4 100 10) 9 4 200 10)
      = [⟨9, 4, 150, 10, 2⟩, ⟨9, 4, 200, 10, 1⟩]
    ∧ incSaveGo [] (stagingValues (addPvSt (addPvSt emptySt 9 4 100 10) 9 4 200 10))
      = [⟨9, 4, 150, 10, 2⟩]
    ∧ ⟨9, 4, 200, 10, 1⟩ ∉
        incSaveGo [] (stagingValues (addPvSt (addPvSt emptySt 9 4 100 10) 9 4 200 10)) := by
  decide

/-- Global PV adds are inert once bench mode holds with a consumed
single-shot token. -/
theorem addPvGList_stationary :
    ∀ (calls : List (Nat × Nat × Int × Int)) (g : GSt),
      g.benchMode = true → g.benchSingleShot = false → addPvGList g calls = g := by
  intro calls
  induction calls with
  | nil => intro g _ _; rfl
  | cons a rest ih =>
    intro g hb hs
    have hstep : addPvG g a.1 a.2.1 a.2.2.1 a.2.2.2 = g := by
      unfold addPvG
      split_ifs <;> simp_all
    rw [show addPvGList g (a :: rest)
          = addPvGList (addPvG g a.1 a.2.1 a.2.2.1 a.2.2.2) rest from rfl, hstep]
    exact ih g hb hs

/-- C4: with `readonly`, `paused` or `enabled = false` neither add
call changes anything; with bench mode on, every
`add_multipv_experience` is dropped outright, a sequence of
`add_pv_experience` calls with open gates and the single-shot token set
appends exactly one staged PV entry (the first call consumes the
token), and with the token already consumed the whole sequence is
inert. -/
theorem write_gates_spec :
    ∀ (g : GSt) (k m : Nat) (v d : Int) (calls : List (Nat × Nat × Int × Int)),
      ((g.readonly = true ∨ g.paused = true ∨ g.enabled = false) →
          addPvG g k m v d = g ∧ addMpvG g k m v d = g)
      ∧ (g.benchMode = true → addMpvG g k m v d = g)
      ∧ (g.benchMode = true → g.present = true → g.enabled = true → g.paused = false →
          g.readonly = false → g.benchSingleShot = true →
          (addPvGList g calls).exp.pv.length =
            g.exp.pv.length + (if calls = [] then 0 else 1))
      ∧ (g.benchMode = true → g.benchSingleShot = false → addPvGList g calls = g) := by
  intro g k m v d calls
  refine ⟨?_, ?_, ?_, fun hb hs => addPvGList_stationary calls g hb hs⟩
  · rintro (h | h | h) <;> exact ⟨by simp [addPvG, h], by simp [addMpvG, h]⟩
  · intro hb
    simp [addMpvG, hb]
  · intro hb hp he hpa hr hshot
    cases calls with
    | nil => simp [addPvGList]
    | cons a rest =>
      have hgate : ¬ ((!g.present || !g.enabled || g.paused || g.readonly) = true) := by
        simp [hp, he, hpa, hr]
      have hstep : addPvG g a.1 a.2.1 a.2.2.1 a.2.2.2
          = { g with benchSingleShot := false,
                     exp := addPvSt g.exp a.1 a.2.1 a.2.2.1 a.2.2.2 } := by
        unfold addPvG
        rw [if_neg hgate, if_pos hb, if_pos hshot]
      rw [show addPvGList g (a :: rest)
            = addPvGList (addPvG g a.1 a.2.1 a.2.2.1 a.2.2.2) rest from rfl, hstep]
      rw [addPvGList_stationary rest
            { g with benchSingleShot := false,
                     exp := addPvSt g.exp a.1 a.2.1 a.2.2.1 a.2.2.2 } hb rfl]
      simp [addPvSt_pv_len]

/-- Concrete instantiation of `write_gates_spec`. -/
theorem write_gates_spec_witness :
    addPvG ⟨true, true, false, true, false, false, emptySt⟩ 0 0 0 0
        = ⟨true, true, false, true, false, false, emptySt⟩
    ∧ (addPvGList ⟨true, true, false, false, true, true, emptySt⟩ [(1, 2, 3, 10)]).exp.pv.length
        = (⟨true, true, false, false, true, true, emptySt⟩ : GSt).exp.pv.length
          + (if ([(1, 2, 3, 10)] : List (Nat × Nat × Int × Int)) = [] then 0 else 1) :=
  ⟨((write_gates_spec ⟨true, true, false, true, false, false, emptySt⟩ 0 0 0 0 []).1
      (Or.inl rfl)).1,
   (write_gates_spec ⟨true, true, false, false, true, true, emptySt⟩ 1 2 3 10
      [(1, 2, 3, 10)]).2.2.1 rfl rfl rfl rfl rfl rfl⟩
